import Mathlib

/-!
Shallow embedding of the telemetry engine of this Go repository (the
`otel`/`observer` packages): the attribute codec `mapToAttribute`, the
attribute fingerprint `hashAttrs`, the gauge registry with TTL eviction and
its collection callback, counter recording, the span commit `Span.Done`, the
fan-out log handler `multiHandler.Handle`, and the Redis-backed trace-carrier
correlation cache with its JSON round-trip.

Machine integers are modelled as `Nat`/`Int` with explicit two's-complement
wrapping where the source converts between widths; Go `float64` values are
modelled by the rationals they denote, since the engine only stores and emits
them and never computes with them; Go errors are modelled as `Option` values
(`none` = nil); Go maps are modelled as association lists with distinct keys.
-/

/-- Model of a Go `float64` value. The engine never performs arithmetic on
metric or attribute float values (they are stored and emitted verbatim), so a
float is represented by the rational it denotes; the exact `float32` to
`float64` widening performed by the source is the identity on the denoted
value. -/
abbrev GoFloat := ℚ

/-- Abstraction of Go's float formatting (`fmt.Sprint` of a `float64`, used
by `attribute.Value.Emit`). No theorem in this development depends on the
exact text it produces. -/
def emitGoFloat (q : GoFloat) : String := toString q

/-- Model of a Go `any` value as it can appear in the `map[string]any`
attribute bags passed to `mapToAttribute` (src/unnamed/part_010 lines
20-111). `vOther` stands for a value of any dynamic type not named in the
source's type switch (struct, chan, `[]float32`, `[]uint`, ...); its
`typeName` field is only a tag for building distinct examples. -/
inductive GoValue where
  | vNil
  | vString (s : String)
  | vBool (b : Bool)
  | vInt (i : Int)
  | vInt64 (i : Int)
  | vUint (n : Nat)
  | vUint64 (n : Nat)
  | vFloat32 (q : GoFloat)
  | vFloat64 (q : GoFloat)
  | vStringSlice (l : List String)
  | vBoolSlice (l : List Bool)
  | vIntSlice (l : List Int)
  | vInt64Slice (l : List Int)
  | vFloat64Slice (l : List GoFloat)
  | vOther (typeName : String)
  deriving DecidableEq, Repr

/-- Typed attribute payloads of the OpenTelemetry `attribute.KeyValue`
representation actually produced by `mapToAttribute`: string, bool, int64,
float64 and their slice forms. -/
inductive AttrValue where
  | s (v : String)
  | b (v : Bool)
  | i (v : Int)
  | f (v : GoFloat)
  | sl (v : List String)
  | bl (v : List Bool)
  | il (v : List Int)
  | fl (v : List GoFloat)
  deriving DecidableEq, Repr

/-- Model of `attribute.KeyValue`. -/
structure Attr where
  key : String
  value : AttrValue
  deriving DecidableEq, Repr

/-- Model of `attribute.Value.Emit` from the otel SDK: strings are returned
verbatim, bools via `strconv.FormatBool`, int64 via `strconv.FormatInt`, and
slices via `fmt.Sprint` (space-separated inside square brackets). Float
formatting is abstracted by `emitGoFloat`. -/
def AttrValue.emit : AttrValue → String
  | .s v => v
  | .b v => if v then "true" else "false"
  | .i v => toString v
  | .f v => emitGoFloat v
  | .sl v => "[" ++ String.intercalate " " v ++ "]"
  | .bl v => "[" ++ String.intercalate " " (v.map fun b => if b then "true" else "false") ++ "]"
  | .il v => "[" ++ String.intercalate " " (v.map toString) ++ "]"
  | .fl v => "[" ++ String.intercalate " " (v.map emitGoFloat) ++ "]"

/-- Go's `math.MaxInt64`. -/
def maxInt64 : Nat := 2 ^ 63 - 1

/-- Two's-complement reinterpretation of a Go `uint` (64-bit) as `int64`, as
performed by the conversion `int64(val)` in the `uint` case of
`mapToAttribute`. -/
def uintToInt64 (n : Nat) : Int :=
  if n % 2 ^ 64 < 2 ^ 63 then ((n % 2 ^ 64 : Nat) : Int)
  else ((n % 2 ^ 64 : Nat) : Int) - 2 ^ 64

/-- Attribute contributed by one entry of the bag in `mapToAttribute`'s type
switch (src/unnamed/part_010 lines 27-107): `nil` values are skipped, each
supported type is converted to its typed attribute (a `uint64` only when it
fits in `int64`), and every other type contributes nothing. -/
def attrOfEntry (k : String) (v : GoValue) : Option Attr :=
  match v with
  | .vNil => none
  | .vString s => some ⟨k, .s s⟩
  | .vBool b => some ⟨k, .b b⟩
  | .vInt i => some ⟨k, .i i⟩
  | .vInt64 i => some ⟨k, .i i⟩
  | .vUint n => some ⟨k, .i (uintToInt64 n)⟩
  | .vUint64 n => if n ≤ maxInt64 then some ⟨k, .i (n : Int)⟩ else none
  | .vFloat32 q => some ⟨k, .f q⟩
  | .vFloat64 q => some ⟨k, .f q⟩
  | .vStringSlice l => some ⟨k, .sl l⟩
  | .vBoolSlice l => some ⟨k, .bl l⟩
  | .vIntSlice l => some ⟨k, .il l⟩
  | .vInt64Slice l => some ⟨k, .il l⟩
  | .vFloat64Slice l => some ⟨k, .fl l⟩
  | .vOther _ => none

/-- Diagnostic line contributed by one entry of the bag: only the `default`
branch of the type switch logs (naming the offending key); in particular the
`nil` skip and the out-of-range `uint64` drop are silent. -/
def logOfEntry (k : String) (v : GoValue) : Option String :=
  match v with
  | .vOther _ =>
      some ("Pair[key:value] with value type is not allowed, key '" ++ k ++ "' will be dropped")
  | _ => none

/-- Model of `mapToAttribute` (src/unnamed/part_010 lines 20-111). The Go
loop appends, per entry, at most one attribute and at most one diagnostic, so
it is the pair of `filterMap`s below; the input list order stands for the Go
map's iteration order. The function is total: it never returns an error. -/
def mapToAttribute (attrMap : List (String × GoValue)) : List Attr × List String :=
  (attrMap.filterMap fun kv => attrOfEntry kv.1 kv.2,
   attrMap.filterMap fun kv => logOfEntry kv.1 kv.2)

/-- Byte/code-point lexicographic comparison of strings as lists of
characters. Go compares strings bytewise; on valid UTF-8 (all Lean strings)
bytewise order coincides with code-point lexicographic order. -/
def charListLe : List Char → List Char → Bool
  | [], _ => true
  | _ :: _, [] => false
  | a :: as, b :: bs =>
      if a.toNat < b.toNat then true
      else if b.toNat < a.toNat then false
      else charListLe as bs

/-- Go's `<=` on strings (bytewise lexicographic). -/
def strLe (a b : String) : Bool := charListLe a.data b.data

/-- Ordering of attributes by key, the comparison used by `sort.Slice` in
`hashAttrs` (src/unnamed/part_026 lines 449-451). -/
def attrKeyLe (a b : Attr) : Prop := strLe a.key b.key = true

instance : DecidableRel attrKeyLe := fun a b => Bool.decEq (strLe a.key b.key) true

/-- Sorting step of `hashAttrs`: `sort.Slice` with the strict key comparison
produces some permutation of the input that is sorted by key (the sort is
unstable, so with duplicate keys the result is unspecified; with distinct
keys it is unique). Insertion sort by `attrKeyLe` realizes such a
permutation. -/
def sortAttrs (attrs : List Attr) : List Attr := attrs.insertionSort attrKeyLe

/-- Model of `hashAttrs` (src/unnamed/part_026 lines 448-461): sort the
attributes by key, then concatenate `key=value|` for each attribute, where
the value is printed with `attribute.Value.Emit`. -/
def hashAttrs (attrs : List Attr) : String :=
  String.join ((sortAttrs attrs).map fun a => a.key ++ "=" ++ a.value.emit ++ "|")

/-- Go map indexing `m[k]` on an association-list model: the value of the
first (unique, for a well-formed map) entry with the given key. -/
def goMapGet {β : Type} (m : List (String × β)) (k : String) : Option β :=
  (m.find? fun kv => kv.1 = k).map fun kv => kv.2

/-- Go map update `m[k] = v` on an association-list model: replace the entry
with the given key, or append a new one. -/
def goMapSet {β : Type} (m : List (String × β)) (k : String) (v : β) : List (String × β) :=
  if m.any fun kv => kv.1 = k then m.map fun kv => if kv.1 = k then (k, v) else kv
  else m ++ [(k, v)]

/-- One gauge series: the struct `gaugeValue` of src/unnamed/part_026
(current value, attribute set, last-update time). Times are modelled as
integer nanoseconds (`time.Time` / `time.Duration`). -/
structure GaugeSeriesValue where
  value : GoFloat
  attrs : List Attr
  updatedAt : Int
  deriving DecidableEq, Repr

/-- The per-gauge series map `currentVals : map[string]*gaugeValue`, keyed by
attribute fingerprint. -/
abbrev GaugeSeriesMap := List (String × GaugeSeriesValue)

/-- The constant `defaultGaugeMetricTTL = time.Millisecond * 60000`
(src/unnamed/part_026 lines 31-32), in nanoseconds. -/
def defaultGaugeMetricTTL : Int := 60000 * 1000000

/-- Series-map effect of `Observer.RecordGauge` (src/unnamed/part_026 lines
421-446) for one registered gauge: convert the attribute bag, fingerprint it,
and upsert `(value, attrs, now)` under the fingerprint. `hashAttrs` sorts the
attribute slice in place, so the stored attribute slice is the sorted one. -/
def recordGaugeSeries (m : GaugeSeriesMap) (value : GoFloat)
    (metricAttrs : List (String × GoValue)) (now : Int) : GaugeSeriesMap :=
  let attrs := (mapToAttribute metricAttrs).1
  let key := hashAttrs attrs
  goMapSet m key ⟨value, sortAttrs attrs, now⟩

/-- Eviction loop of the gauge collection callback (src/unnamed/part_026
lines 298-302): delete every series whose age at collection time exceeds the
TTL. -/
def evictExpired (m : GaugeSeriesMap) (now : Int) : GaugeSeriesMap :=
  m.filter fun kv => ! decide (now - kv.2.updatedAt > defaultGaugeMetricTTL)

/-- Observation loop of the gauge collection callback (src/unnamed/part_026
lines 304-308): after eviction, emit `(value, attrs)` for every remaining
series. -/
def collectObservations (m : GaugeSeriesMap) (now : Int) : List (GoFloat × List Attr) :=
  (evictExpired m now).map fun kv => (kv.2.value, kv.2.attrs)

/-- Lock mode of a `sync.RWMutex` acquisition. -/
inductive LockMode where
  | read
  | write
  deriving DecidableEq, Repr

/-- Straight-line steps of the gauge collection callback, as far as locking
is concerned. -/
inductive CallbackStep where
  | acquire (m : LockMode)
  | release (m : LockMode)
  | evictExpiredSeries
  | observeSeries
  deriving DecidableEq, Repr

/-- Lock/effect trace of the collection callback registered by
`registerGauge` (src/unnamed/part_026 lines 292-313): `mu.RLock()` with a
deferred `mu.RUnlock()`, then the eviction loop that deletes expired entries
from `currentVals`, then the observe loop that emits the remaining series. -/
def gaugeCollectionCallback : List CallbackStep :=
  [.acquire .read, .evictExpiredSeries, .observeSeries, .release .read]

/-- Pair each effect step of a trace with the lock mode held while it runs
(`none` when no lock is held). -/
def effectLockModesFrom : Option LockMode → List CallbackStep → List (CallbackStep × Option LockMode)
  | _, [] => []
  | _, .acquire m :: rest => effectLockModesFrom (some m) rest
  | _, .release _ :: rest => effectLockModesFrom none rest
  | held, .evictExpiredSeries :: rest => (.evictExpiredSeries, held) :: effectLockModesFrom held rest
  | held, .observeSeries :: rest => (.observeSeries, held) :: effectLockModesFrom held rest

/-- Effect steps of a callback trace with the lock mode each runs under. -/
def effectLockModes (steps : List CallbackStep) : List (CallbackStep × Option LockMode) :=
  effectLockModesFrom none steps

/-- Behaviour of one configured log sink toward one record: whether the
sink's own minimum level admits the record, and the error (if any) its
`Handle` returns. -/
structure SinkBehavior where
  admits : Bool
  err : Option String
  deriving DecidableEq, Repr

/-- Dispatch loop of `multiHandler.Handle` (src/unnamed/part_026 lines
642-659 and src/unnamed/part_022 lines 178-195): after enriching the record,
call each handler's `Handle` in order and return the first non-nil error
immediately. Returns the indices of the sinks whose `Handle` was invoked
(the sinks that received the record) and the error returned to the caller. -/
def multiHandlerDispatchFrom : Nat → List SinkBehavior → List Nat × Option String
  | _, [] => ([], none)
  | i, s :: rest =>
      match s.err with
      | some e => ([i], some e)
      | none =>
          let r := multiHandlerDispatchFrom (i + 1) rest
          (i :: r.1, r.2)

/-- Dispatch of one record to the configured sinks, starting at index 0. -/
def multiHandlerDispatch (sinks : List SinkBehavior) : List Nat × Option String :=
  multiHandlerDispatchFrom 0 sinks

/-- Mutable state of the span wrapper `Span` (src/unnamed/part_017 lines
48-56): the accumulated attribute map and the pending error (`none` = nil). -/
structure SpanState where
  spanAttributes : List (String × GoValue)
  err : Option String
  deriving DecidableEq, Repr

/-- Pre-commit operations on a span: `SetAttribute` (map upsert,
src/unnamed/part_017 lines 100-107) and `SetError` (overwrite the pending
error, lines 92-98; Go allows passing nil, modelled as `none`). -/
inductive SpanOp where
  | setAttribute (k : String) (v : GoValue)
  | setError (e : Option String)
  deriving DecidableEq, Repr

/-- Effect of one operation on the span state. -/
def applySpanOp (s : SpanState) : SpanOp → SpanState
  | .setAttribute k v => { s with spanAttributes := goMapSet s.spanAttributes k v }
  | .setError e => { s with err := e }

/-- Span state reached from a fresh span (`NewSpan`: empty attribute map, nil
error) by a sequence of operations. -/
def applySpanOps (ops : List SpanOp) : SpanState :=
  ops.foldl applySpanOp ⟨[], none⟩

/-- OpenTelemetry status code set by `Span.Done`. -/
inductive StatusCode where
  | error
  | ok
  deriving DecidableEq, Repr

/-- Calls `Span.Done` issues on the underlying `trace.Span` handle. -/
inductive CoreSpanEffect where
  | setAttributes (attrs : List Attr)
  | recordError (e : String)
  | setStatus (code : StatusCode) (msg : String)
  | endSpan (withStackTrace : Bool)
  deriving DecidableEq, Repr

/-- Model of `Span.Done` (src/unnamed/part_017 lines 61-76 and
src/otel/wrapper/otel/otel_span.go lines 51-66): convert and set the
accumulated attributes, then, if the pending error is non-nil, record it, set
status Error with the error's message and end with a stack trace; otherwise
set status Ok ("success") and end. -/
def spanDone (s : SpanState) : List CoreSpanEffect :=
  let attrs := (mapToAttribute s.spanAttributes).1
  match s.err with
  | some e => [.setAttributes attrs, .recordError e, .setStatus .error e, .endSpan true]
  | none => [.setAttributes attrs, .setStatus .ok "success", .endSpan false]

/-- Attribute map accumulated by the `setAttribute` operations of a sequence
(spec-side reading of the claim's "attributes accumulated via
SetAttribute"). -/
def accumulatedAttributes (ops : List SpanOp) : List (String × GoValue) :=
  ops.foldl
    (fun m op => match op with
      | .setAttribute k v => goMapSet m k v
      | .setError _ => m)
    []

/-- Pending error after a sequence of operations: the argument of the last
`setError`, `none` if there was none (spec-side reading). -/
def pendingError (ops : List SpanOp) : Option String :=
  ops.foldl
    (fun acc op => match op with
      | .setAttribute _ _ => acc
      | .setError e => e)
    none

/-- State of one counter instrument: the list of `(delta, attrs)` additions
issued on it via `counter.Add` (the SDK accumulates these). -/
abbrev CounterAdditions := List (Int × List Attr)

/-- Model of `Observer.RecordCounterWithCtx` (src/unnamed/part_026 lines
331-350), acting on the registry's name-to-counter map. The Go function
returns nothing: its only outputs are the instrument state and the
diagnostic lines printed with `stdLog.Printf`; no error can reach the
caller. `meterConfigured` models `o.meter != nil`. -/
def recordCounterWithCtx (meterConfigured : Bool)
    (counters : List (String × CounterAdditions)) (name : String) (value : Int)
    (metricAttrs : List (String × GoValue)) :
    List (String × CounterAdditions) × List String :=
  if !meterConfigured then
    (counters, ["[error] Failed to use Meter: meter is unconfigured"])
  else
    match goMapGet counters name with
    | none => (counters, ["[error] Failed to record Counter '" ++ name ++ "': Not found"])
    | some _ =>
        if value < 0 then
          (counters,
           ["[error] Failed to record Counter '" ++ name ++ "': Value must be non-negative"])
        else
          (counters.map fun nc =>
             if nc.1 = name then (nc.1, nc.2 ++ [(value, (mapToAttribute metricAttrs).1)]) else nc,
           (mapToAttribute metricAttrs).2)

/-- Accumulated total of a counter: the sum of the deltas added to it. -/
def counterTotal (counters : List (String × CounterAdditions)) (name : String) : Int :=
  match goMapGet counters name with
  | some adds => (adds.map fun dv => dv.1).sum
  | none => 0

/-- Lower-case hex digit, as produced by Go `encoding/json`'s string
escaper. -/
def hexDigitChar (n : Nat) : Char :=
  if n < 10 then Char.ofNat (0x30 + n) else Char.ofNat (0x61 + (n - 10))

/-- Per-character escaping of Go `encoding/json`'s string encoder with its
default HTML escaping: quote, backslash, newline, carriage return and tab get
two-character escapes; other control characters and the HTML characters get
`\u00XX`; U+2028 and U+2029 get `\u202X`; everything else is copied
verbatim. -/
def escapeChar (c : Char) : List Char :=
  if c = '"' then ['\\', '"']
  else if c = '\\' then ['\\', '\\']
  else if c = '\n' then ['\\', 'n']
  else if c = '\r' then ['\\', 'r']
  else if c = '\t' then ['\\', 't']
  else if c.toNat < 0x20 ∨ c = '<' ∨ c = '>' ∨ c = '&' then
    ['\\', 'u', '0', '0', hexDigitChar (c.toNat / 16), hexDigitChar (c.toNat % 16)]
  else if c.toNat = 0x2028 ∨ c.toNat = 0x2029 then
    ['\\', 'u', '2', '0', '2', hexDigitChar (c.toNat % 16)]
  else [c]

/-- JSON encoding of one string: quote, escaped characters, quote. -/
def encodeStringChars (s : String) : List Char :=
  '"' :: (s.data.map escapeChar).flatten ++ ['"']

/-- Numeric value of a hex digit accepted by Go's `\uXXXX` decoder. -/
def hexVal (c : Char) : Option Nat :=
  if 0x30 ≤ c.toNat ∧ c.toNat ≤ 0x39 then some (c.toNat - 0x30)
  else if 0x61 ≤ c.toNat ∧ c.toNat ≤ 0x66 then some (c.toNat - 0x61 + 10)
  else if 0x41 ≤ c.toNat ∧ c.toNat ≤ 0x46 then some (c.toNat - 0x41 + 10)
  else none

/-- Surrogate handling of Go's `\uXXXX` decoder: when the decoded unit `n`
is a surrogate, a following `\uXXXX` low surrogate is combined with it into
one code point (consuming those further 6 characters); otherwise U+FFFD is
produced and nothing further is consumed. Returns the decoded character and
the number of extra characters consumed. -/
def surrogateDecode (n : Nat) (l : List Char) : Char × Nat :=
  match l with
  | b1 :: b2 :: g1 :: g2 :: g3 :: g4 :: _ =>
      match hexVal g1, hexVal g2, hexVal g3, hexVal g4 with
      | some e1, some e2, some e3, some e4 =>
          let n2 := ((e1 * 16 + e2) * 16 + e3) * 16 + e4
          if b1 = '\\' ∧ b2 = 'u' ∧ n < 0xDC00 ∧ 0xDC00 ≤ n2 ∧ n2 < 0xE000 then
            (Char.ofNat (0x10000 + (n - 0xD800) * 0x400 + (n2 - 0xDC00)), 6)
          else ('�', 0)
      | _, _, _, _ => ('�', 0)
  | _ => ('�', 0)

/-- JSON string-body decoder, modelling Go `encoding/json`'s `unquote`: read
characters up to the closing quote, handling the standard two-character
escapes and `\uXXXX` (an unpaired surrogate decodes to U+FFFD, a valid
surrogate pair to the combined code point). `acc` holds the decoded
characters in reverse; the result is the decoded string and the input after
the closing quote. `fuel` only bounds the recursion depth to make the
function structurally recursive: every step consumes at least one input
character, so starting with the input's length (as `parseJSONString` does)
never changes the result. -/
def unquoteAux : Nat → List Char → List Char → Option (String × List Char)
  | 0, _, _ => none
  | fuel + 1, acc, l =>
    match l with
    | [] => none
    | c :: rest =>
      if c = '"' then some (String.mk acc.reverse, rest)
      else if c = '\\' then
        match rest with
        | [] => none
        | e :: rest2 =>
          if e = '"' then unquoteAux fuel ('"' :: acc) rest2
          else if e = '\\' then unquoteAux fuel ('\\' :: acc) rest2
          else if e = '/' then unquoteAux fuel ('/' :: acc) rest2
          else if e = 'b' then unquoteAux fuel ('\x08' :: acc) rest2
          else if e = 'f' then unquoteAux fuel ('\x0c' :: acc) rest2
          else if e = 'n' then unquoteAux fuel ('\n' :: acc) rest2
          else if e = 'r' then unquoteAux fuel ('\r' :: acc) rest2
          else if e = 't' then unquoteAux fuel ('\t' :: acc) rest2
          else if e = 'u' then
            match rest2 with
            | h1 :: h2 :: h3 :: h4 :: rest3 =>
              match hexVal h1, hexVal h2, hexVal h3, hexVal h4 with
              | some d1, some d2, some d3, some d4 =>
                let n := ((d1 * 16 + d2) * 16 + d3) * 16 + d4
                if n < 0xD800 ∨ 0xE000 ≤ n then
                  unquoteAux fuel (Char.ofNat n :: acc) rest3
                else
                  let p := surrogateDecode n rest3
                  unquoteAux fuel (p.1 :: acc) (rest3.drop p.2)
              | _, _, _, _ => none
            | _ => none
          else none
      else unquoteAux fuel (c :: acc) rest

/-- Parse one JSON string literal (opening quote, body, closing quote). -/
def parseJSONString : List Char → Option (String × List Char)
  | [] => none
  | c :: rest => if c = '"' then unquoteAux rest.length [] rest else none

/-- JSON encoding of one `"key":"value"` member. -/
def encodePairChars (kv : String × String) : List Char :=
  encodeStringChars kv.1 ++ ':' :: encodeStringChars kv.2

/-- Comma-separated encoding of the members of an object. -/
def membersChars : List (String × String) → List Char
  | [] => []
  | [kv] => encodePairChars kv
  | kv :: rest => encodePairChars kv ++ ',' :: membersChars rest

/-- Ordering of object members by key, as Go `encoding/json` sorts a map's
keys (bytewise string comparison) before emitting it. -/
def pairKeyLe (a b : String × String) : Prop := strLe a.1 b.1 = true

instance : DecidableRel pairKeyLe := fun a b => Bool.decEq (strLe a.1 b.1) true

/-- Key-sorting step of Go `json.Marshal` for a map. -/
def sortPairsByKey (ps : List (String × String)) : List (String × String) :=
  ps.insertionSort pairKeyLe

/-- Character stream of Go `json.Marshal` applied to a `map[string]string`:
an object whose members are the map's entries sorted by key. -/
def marshalChars (c : List (String × String)) : List Char :=
  '\x7b' :: membersChars (sortPairsByKey c) ++ ['\x7d']

/-- Go `json.Marshal` of a `TraceCarrier` (`map[string]string`); it cannot
fail on this type, so no error case is modelled. -/
def jsonMarshalCarrier (c : List (String × String)) : String :=
  String.mk (marshalChars c)

/-- Parse the members of a non-empty JSON object, positioned at the opening
quote of a key; consumes the closing brace. `fuel` bounds the number of
members (one unit per member) and only ever makes the parser more partial. -/
def parseMembers : Nat → List Char → Option (List (String × String) × List Char)
  | 0, _ => none
  | fuel + 1, l =>
    match parseJSONString l with
    | none => none
    | some (k, r1) =>
      match r1 with
      | ':' :: r2 =>
        match parseJSONString r2 with
        | none => none
        | some (v, r3) =>
          match r3 with
          | ',' :: r4 =>
            match parseMembers fuel r4 with
            | some (ps, r5) => some ((k, v) :: ps, r5)
            | none => none
          | c :: r4 => if c = '\x7d' then some ([(k, v)], r4) else none
          | [] => none
      | _ => none

/-- Model of Go `json.Unmarshal` of a flat JSON object into a
`map[string]string`, restricted to the whitespace-free, duplicate-free form
that `json.Marshal` produces for a map (Go additionally skips whitespace
between tokens and lets later duplicate keys win; neither occurs in
`json.Marshal` output). Trailing input after the object is an error, as in
Go. -/
def jsonUnmarshalCarrier (s : String) : Option (List (String × String)) :=
  match s.data with
  | [] => none
  | c :: rest =>
    if c = '\x7b' then
      match rest with
      | [] => none
      | d :: rest2 =>
        if d = '\x7d' then (if rest2 = [] then some [] else none)
        else
          match parseMembers rest.length rest with
          | some (ps, r) => if r = [] then some ps else none
          | none => none
    else none

/-- Model of the `TraceCarrier` type (`propagation.MapCarrier`, a
`map[string]string`), in canonical association-list form: entries sorted by
key with distinct keys, the unique list representation of a Go map value. -/
abbrev TraceCarrier := List (String × String)

/-- State of the Redis backing store visible to the correlation cache: for
each Redis key, a hash (field-to-value map). This models the store behaving
normally; connection failures are modelled at the reply level by
`HGetResult.connError`. -/
structure RedisStore where
  hashes : List (String × List (String × String))
  deriving DecidableEq, Repr

/-- Redis `HGET`: the value of a hash field, if present. -/
def hgetField (st : RedisStore) (rkey field : String) : Option String :=
  match goMapGet st.hashes rkey with
  | some h => goMapGet h field
  | none => none

/-- Redis `HSET`: set one field of a hash, creating the hash if needed. -/
def hsetField (st : RedisStore) (rkey field val : String) : RedisStore :=
  match goMapGet st.hashes rkey with
  | some h => ⟨goMapSet st.hashes rkey (goMapSet h field val)⟩
  | none => ⟨goMapSet st.hashes rkey [(field, val)]⟩

/-- The hash key for a group: `getGroupKey` of src/unnamed/part_024 lines
55-57, with `TraceCarrierCacheKey = "OTEL:TRACECARRIER"`. -/
def getGroupKey (group : String) : String := "OTEL:TRACECARRIER" ++ ":" ++ group

/-- Model of `redisCache.SetTraceCarrierFromGroup` (src/unnamed/part_024
lines 104-111): marshal the carrier to JSON (which cannot fail for a
`map[string]string`) and `HSET` it under the group's hash key. -/
def setTraceCarrierFromGroup (st : RedisStore) (group key : String) (c : TraceCarrier) :
    RedisStore :=
  hsetField st (getGroupKey group) key (jsonMarshalCarrier c)

/-- Outcome of the `HGet(...).Result()` call as seen by the cache code: a
stored value, the `redis.Nil` miss reply, or a backend failure. -/
inductive HGetResult where
  | found (raw : String)
  | nilReply
  | connError (msg : String)
  deriving DecidableEq, Repr

/-- Reply of a normally-behaving backend: the stored value if the field
exists, `redis.Nil` otherwise. -/
def hgetOutcome (st : RedisStore) (rkey field : String) : HGetResult :=
  match hgetField st rkey field with
  | some v => .found v
  | none => .nilReply

/-- Error cases `GetTraceCarrierFromGroup` can return: a backend error
propagated from `HGet`, or a `json.Unmarshal` failure on the stored value. -/
inductive CacheErr where
  | backend (msg : String)
  | decodeFailure
  deriving DecidableEq, Repr

/-- Model of `redisCache.GetTraceCarrierFromGroup` (src/unnamed/part_024
lines 85-102; identically src/unnamed/part_021 lines 108-117) as a function
of the backend's reply: `redis.Nil` yields the empty carrier and a nil
error; any other backend error is returned with an empty carrier; a stored
value is unmarshalled, an undecodable value yielding an error and a decoded
one the carrier with a nil error. -/
def getTraceCarrierFromGroupResult (resp : HGetResult) : TraceCarrier × Option CacheErr :=
  match resp with
  | .nilReply => ([], none)
  | .connError msg => ([], some (.backend msg))
  | .found raw =>
      match jsonUnmarshalCarrier raw with
      | none => ([], some .decodeFailure)
      | some c => (c, none)

/-- `GetTraceCarrierFromGroup` against a normally-behaving backend in state
`st`. -/
def getTraceCarrierFromGroup (st : RedisStore) (group key : String) :
    TraceCarrier × Option CacheErr :=
  getTraceCarrierFromGroupResult (hgetOutcome st (getGroupKey group) key)

/-- Claim-side classification (for the amended reading of the codec claim):
values the codec converts to a typed attribute. -/
def codecConverts (v : GoValue) : Bool :=
  match v with
  | .vNil => false
  | .vOther _ => false
  | .vUint64 n => decide (n ≤ maxInt64)
  | _ => true

/-- Claim-side classification: values the codec drops silently (a nil value,
or a `uint64` exceeding `math.MaxInt64`). -/
def codecSilentlyDrops (v : GoValue) : Bool :=
  match v with
  | .vNil => true
  | .vUint64 n => decide (maxInt64 < n)
  | _ => false

/-- Claim-side classification: values of a type outside the codec's switch,
dropped with a diagnostic. -/
def codecDiagnoses (v : GoValue) : Bool :=
  match v with
  | .vOther _ => true
  | _ => false

/-- The diagnostic line the codec prints for a dropped key. -/
def codecDiagnosticLine (k : String) : String :=
  "Pair[key:value] with value type is not allowed, key '" ++ k ++ "' will be dropped"

/-! ## Order properties of the bytewise string comparison -/

theorem char_toNat_inj {a b : Char} (h : a.toNat = b.toNat) : a = b := by
  rw [← Char.ofNat_toNat a, ← Char.ofNat_toNat b, h]

theorem charListLe_total : ∀ a b : List Char, charListLe a b = true ∨ charListLe b a = true
  | [], _ => Or.inl rfl
  | _ :: _, [] => Or.inr rfl
  | a :: as, b :: bs => by
      by_cases h1 : a.toNat < b.toNat
      · exact Or.inl (by simp [charListLe, h1])
      · by_cases h2 : b.toNat < a.toNat
        · exact Or.inr (by simp [charListLe, h1, h2])
        · rcases charListLe_total as bs with h | h
          · exact Or.inl (by simp [charListLe, h1, h2, h])
          · exact Or.inr (by simp [charListLe, h1, h2, h])

theorem charListLe_cons_true {a b : Char} {as bs : List Char}
    (h : charListLe (a :: as) (b :: bs) = true) :
    a.toNat < b.toNat ∨ (a.toNat = b.toNat ∧ charListLe as bs = true) := by
  by_cases h1 : a.toNat < b.toNat
  · exact Or.inl h1
  · by_cases h2 : b.toNat < a.toNat
    · simp [charListLe, h1, h2] at h
    · exact Or.inr ⟨by omega, by simpa [charListLe, h1, h2] using h⟩

theorem charListLe_trans : ∀ a b c : List Char,
    charListLe a b = true → charListLe b c = true → charListLe a c = true
  | [], _, _, _, _ => rfl
  | _ :: _, [], _, hab, _ => by simp [charListLe] at hab
  | _ :: _, _ :: _, [], _, hbc => by simp [charListLe] at hbc
  | a :: as, b :: bs, c :: cs, hab, hbc => by
      rcases charListLe_cons_true hab with h | ⟨heq, hab₂⟩ <;>
        rcases charListLe_cons_true hbc with h' | ⟨heq', hbc₂⟩
      · simp [charListLe, show a.toNat < c.toNat by omega]
      · simp [charListLe, show a.toNat < c.toNat by omega]
      · simp [charListLe, show a.toNat < c.toNat by omega]
      · have hac : a.toNat = c.toNat := by omega
        simp [charListLe, show ¬ a.toNat < c.toNat by omega, show ¬ c.toNat < a.toNat by omega]
        exact charListLe_trans as bs cs hab₂ hbc₂

theorem charListLe_antisymm : ∀ a b : List Char,
    charListLe a b = true → charListLe b a = true → a = b
  | [], [], _, _ => rfl
  | [], _ :: _, _, hba => by simp [charListLe] at hba
  | _ :: _, [], hab, _ => by simp [charListLe] at hab
  | a :: as, b :: bs, hab, hba => by
      rcases charListLe_cons_true hab with h | ⟨heq, hab₂⟩ <;>
        rcases charListLe_cons_true hba with h' | ⟨heq', hba₂⟩
      · omega
      · omega
      · omega
      · have hc : a = b := char_toNat_inj (by omega)
        have ht : as = bs := charListLe_antisymm as bs hab₂ hba₂
        rw [hc, ht]

theorem string_data_inj {a b : String} (h : a.data = b.data) : a = b :=
  String.ext h

theorem strLe_total (a b : String) : strLe a b = true ∨ strLe b a = true :=
  charListLe_total a.data b.data

theorem strLe_trans {a b c : String} (hab : strLe a b = true) (hbc : strLe b c = true) :
    strLe a c = true :=
  charListLe_trans a.data b.data c.data hab hbc

theorem strLe_antisymm {a b : String} (hab : strLe a b = true) (hba : strLe b a = true) :
    a = b :=
  string_data_inj (charListLe_antisymm a.data b.data hab hba)

instance : IsTotal Attr attrKeyLe := ⟨fun a b => strLe_total a.key b.key⟩

instance : IsTrans Attr attrKeyLe := ⟨fun _ _ _ hab hbc => strLe_trans hab hbc⟩

instance : IsTotal (String × String) pairKeyLe := ⟨fun a b => strLe_total a.1 b.1⟩

instance : IsTrans (String × String) pairKeyLe := ⟨fun _ _ _ hab hbc => strLe_trans hab hbc⟩

/-- Two lists that are permutations of each other, both sorted by their
(string) keys, and whose keys are distinct, are equal. This is the uniqueness
fact that makes the unstable `sort.Slice` deterministic on attribute sets
with distinct keys. -/
theorem eq_of_perm_of_sorted_on_keys {α : Type} (key : α → String) :
    ∀ {l₁ l₂ : List α}, l₁.Perm l₂ →
      l₁.Pairwise (fun a b => strLe (key a) (key b) = true) →
      l₂.Pairwise (fun a b => strLe (key a) (key b) = true) →
      (l₁.map key).Nodup → l₁ = l₂
  | [], l₂, hp, _, _, _ => (hp.symm.eq_nil).symm
  | a :: t₁, [], hp, _, _, _ => absurd hp.eq_nil (by simp)
  | a :: t₁, b :: t₂, hp, h₁, h₂, hnd => by
      rcases List.pairwise_cons.mp h₁ with ⟨ha1, ht1⟩
      rcases List.pairwise_cons.mp h₂ with ⟨hb2, ht2⟩
      by_cases hab : a = b
      · subst hab
        have hperm : t₁.Perm t₂ := hp.cons_inv
        have hnd' : (t₁.map key).Nodup := (List.nodup_cons.mp (by simpa using hnd)).2
        rw [eq_of_perm_of_sorted_on_keys key hperm ht1 ht2 hnd']
      · exfalso
        have hbmem : b ∈ a :: t₁ := hp.symm.subset (List.mem_cons_self b t₂)
        have hamem : a ∈ b :: t₂ := hp.subset (List.mem_cons_self a t₁)
        have hb_t₁ : b ∈ t₁ := by
          rcases List.mem_cons.mp hbmem with h | h
          · exact absurd h.symm hab
          · exact h
        have ha_t₂ : a ∈ t₂ := by
          rcases List.mem_cons.mp hamem with h | h
          · exact absurd h hab
          · exact h
        have hk : key a = key b :=
          strLe_antisymm (ha1 b hb_t₁) (hb2 a ha_t₂)
        have hnotin : key a ∉ t₁.map key := (List.nodup_cons.mp (by simpa using hnd)).1
        exact hnotin (hk ▸ List.mem_map_of_mem key hb_t₁)

theorem sortAttrs_perm (l : List Attr) : (sortAttrs l).Perm l :=
  List.perm_insertionSort attrKeyLe l

theorem sortAttrs_sorted (l : List Attr) : (sortAttrs l).Pairwise attrKeyLe :=
  List.sorted_insertionSort attrKeyLe l

/-! ## Keys of codec output -/

theorem attrOfEntry_key {k : String} {v : GoValue} {a : Attr}
    (h : attrOfEntry k v = some a) : a.key = k := by
  obtain ⟨ak, av⟩ := a
  cases v <;> simp [attrOfEntry, Option.ite_none_right_eq_some] at h <;> simp_all

theorem nodup_keys_unique {β : Type} {m : List (String × β)} {k : String} {v₁ v₂ : β}
    (hnd : (m.map Prod.fst).Nodup) (h₁ : (k, v₁) ∈ m) (h₂ : (k, v₂) ∈ m) : v₁ = v₂ := by
  induction m with
  | nil => cases h₁
  | cons kv m ih =>
      rcases List.nodup_cons.mp (show (kv.1 :: m.map Prod.fst).Nodup from by simpa using hnd) with
        ⟨hk, hnd'⟩
      rcases List.mem_cons.mp h₁ with h1 | h1 <;> rcases List.mem_cons.mp h₂ with h2 | h2
      · exact congrArg Prod.snd (h1.trans h2.symm)
      · exfalso
        have hmem := List.mem_map_of_mem Prod.fst h2
        rw [← h1] at hk
        exact hk hmem
      · exfalso
        have hmem := List.mem_map_of_mem Prod.fst h1
        rw [← h2] at hk
        exact hk hmem
      · exact ih hnd' h1 h2

theorem mapToAttribute_keys_sublist (m : List (String × GoValue)) :
    ((mapToAttribute m).1.map Attr.key).Sublist (m.map Prod.fst) := by
  simp only [mapToAttribute]
  induction m with
  | nil => simp
  | cons kv m ih =>
      simp only [List.filterMap_cons, List.map_cons]
      cases h : attrOfEntry kv.1 kv.2 with
      | none => exact ih.cons kv.1
      | some a =>
          simp only [List.map_cons]
          rw [attrOfEntry_key h]
          exact ih.cons₂ kv.1

/-- C3: for every attribute set with distinct keys, the fingerprint computed
by `hashAttrs` is invariant under permutation of the attributes, and hence
two `RecordGauge` calls supplying the same attribute bag in different
iteration orders compute the same series key. (Keys are distinct because the
attributes come from a Go map.) -/
theorem hashAttrs_fingerprint_perm_invariant :
    (∀ A A' : List Attr, A.Perm A' → (A.map Attr.key).Nodup → hashAttrs A = hashAttrs A') ∧
    (∀ m m' : List (String × GoValue), m.Perm m' → (m.map Prod.fst).Nodup →
       hashAttrs (mapToAttribute m).1 = hashAttrs (mapToAttribute m').1) := by
  have part1 : ∀ A A' : List Attr, A.Perm A' → (A.map Attr.key).Nodup →
      hashAttrs A = hashAttrs A' := by
    intro A A' hp hnd
    have hperm : (sortAttrs A).Perm (sortAttrs A') :=
      (sortAttrs_perm A).trans (hp.trans (sortAttrs_perm A').symm)
    have hnd' : ((sortAttrs A).map Attr.key).Nodup :=
      (((sortAttrs_perm A).map Attr.key).nodup_iff).mpr hnd
    have heq : sortAttrs A = sortAttrs A' :=
      eq_of_perm_of_sorted_on_keys Attr.key hperm (sortAttrs_sorted A) (sortAttrs_sorted A') hnd'
    unfold hashAttrs
    rw [heq]
  refine ⟨part1, fun m m' hp hnd => ?_⟩
  exact part1 _ _ (hp.filterMap _) ((mapToAttribute_keys_sublist m).nodup hnd)

/-- Witness for C3 at a concrete two-attribute set. -/
theorem hashAttrs_fingerprint_perm_invariant_witness :
    (([⟨"b", AttrValue.s "1"⟩, ⟨"a", AttrValue.s "2"⟩] : List Attr).Perm
        [⟨"a", AttrValue.s "2"⟩, ⟨"b", AttrValue.s "1"⟩] ∧
      (([⟨"b", AttrValue.s "1"⟩, ⟨"a", AttrValue.s "2"⟩] : List Attr).map Attr.key).Nodup) ∧
    hashAttrs [⟨"b", AttrValue.s "1"⟩, ⟨"a", AttrValue.s "2"⟩] =
      hashAttrs [⟨"a", AttrValue.s "2"⟩, ⟨"b", AttrValue.s "1"⟩] :=
  ⟨⟨by decide, by decide⟩,
   hashAttrs_fingerprint_perm_invariant.1 _ _ (by decide) (by decide)⟩

/-- C10: the fingerprint is not injective: the singleton attribute set
`a = "b|c=d"` and the two-attribute set `a = "b", c = "d"` are distinct but
both fingerprint to `"a=b|c=d|"`, and two `RecordGauge` writes with these
distinct attribute bags land in one single series-map slot. -/
theorem hashAttrs_not_injective :
    hashAttrs [⟨"a", AttrValue.s "b|c=d"⟩] = "a=b|c=d|" ∧
    hashAttrs [⟨"a", AttrValue.s "b"⟩, ⟨"c", AttrValue.s "d"⟩] = "a=b|c=d|" ∧
    ([⟨"a", AttrValue.s "b|c=d"⟩] : List Attr) ≠ [⟨"a", AttrValue.s "b"⟩, ⟨"c", AttrValue.s "d"⟩] ∧
    (recordGaugeSeries (recordGaugeSeries [] 1 [("a", GoValue.vString "b|c=d")] 0) 2
        [("a", GoValue.vString "b"), ("c", GoValue.vString "d")] 1).map Prod.fst =
      ["a=b|c=d|"] := by
  refine ⟨by decide, by decide, by decide, by decide⟩

/-- C1 (the claim fails on the code): in the collection callback registered
by `registerGauge`, both the eviction step (which deletes entries from the
series map) and the observation step run while holding the read lock, and no
step of the callback runs under the write lock. -/
theorem gaugeCollectionCallback_evicts_under_read_lock :
    (CallbackStep.evictExpiredSeries, some LockMode.read) ∈
        effectLockModes gaugeCollectionCallback ∧
    (CallbackStep.observeSeries, some LockMode.read) ∈
        effectLockModes gaugeCollectionCallback ∧
    ∀ p ∈ effectLockModes gaugeCollectionCallback, p.2 ≠ some LockMode.write := by
  decide

/-- C4 (the claim fails on the code): with two sinks that both admit the
record, the first of which fails, `multiHandler.Handle` returns the first
sink's error and never invokes the second sink's `Handle`: the record is not
delivered to the remaining sinks. -/
theorem multiHandler_stops_at_first_failing_sink :
    multiHandlerDispatch [⟨true, some "disk full"⟩, ⟨true, none⟩] = ([0], some "disk full") ∧
    1 ∉ (multiHandlerDispatch [⟨true, some "disk full"⟩, ⟨true, none⟩]).1 := by
  decide

/-! ## Go-map lemmas for the gauge series map -/

theorem goMapGet_cons {β : Type} (kv : String × β) (m : List (String × β)) (k : String) :
    goMapGet (kv :: m) k = if kv.1 = k then some kv.2 else goMapGet m k := by
  by_cases h : kv.1 = k <;> simp [goMapGet, List.find?_cons, h]

theorem goMapGet_eq_none_iff {β : Type} (m : List (String × β)) (k : String) :
    goMapGet m k = none ↔ k ∉ m.map Prod.fst := by
  induction m with
  | nil => simp [goMapGet]
  | cons kv m ih =>
      rw [goMapGet_cons]
      by_cases h : kv.1 = k
      · simp [h]
      · simp only [if_neg h, ih, List.map_cons, List.mem_cons]
        constructor
        · intro hn
          exact fun hor => hor.elim (fun heq => h heq.symm) hn
        · intro hn
          exact fun hmem => hn (Or.inr hmem)

theorem mem_of_goMapGet_eq_some {β : Type} {m : List (String × β)} {k : String} {v : β}
    (h : goMapGet m k = some v) : (k, v) ∈ m := by
  induction m with
  | nil => simp [goMapGet] at h
  | cons kv m ih =>
      rw [goMapGet_cons] at h
      by_cases hk : kv.1 = k
      · rw [if_pos hk] at h
        injection h with h'
        rw [← hk, ← h']
        exact List.mem_cons_self kv m
      · rw [if_neg hk] at h
        exact List.mem_cons_of_mem kv (ih h)

theorem goMapGet_filter_of_true {β : Type} (pred : String × β → Bool) :
    ∀ {m : List (String × β)} {k : String} {v : β},
      goMapGet m k = some v → pred (k, v) = true → goMapGet (m.filter pred) k = some v := by
  intro m
  induction m with
  | nil => intro k v h _; simp [goMapGet] at h
  | cons kv m ih =>
      intro k v h hp
      rw [goMapGet_cons] at h
      by_cases hk : kv.1 = k
      · rw [if_pos hk] at h
        injection h with h'
        have hkv : kv = (k, v) := by rw [← hk, ← h']
        rw [List.filter_cons, if_pos (by rw [hkv]; exact hp)]
        rw [goMapGet_cons, if_pos hk, h']
      · rw [if_neg hk] at h
        rw [List.filter_cons]
        by_cases hpk : pred kv
        · rw [if_pos hpk, goMapGet_cons, if_neg hk]
          exact ih h hp
        · rw [if_neg hpk]
          exact ih h hp

theorem goMapGet_filter_of_false {β : Type} (pred : String × β → Bool) :
    ∀ {m : List (String × β)} {k : String} {v : β},
      (m.map Prod.fst).Nodup → goMapGet m k = some v → pred (k, v) = false →
      goMapGet (m.filter pred) k = none := by
  intro m
  induction m with
  | nil => intro k v _ h _; simp [goMapGet] at h
  | cons kv m ih =>
      intro k v hnd h hp
      rcases List.nodup_cons.mp (show (kv.1 :: m.map Prod.fst).Nodup from by simpa using hnd) with
        ⟨hk1, hnd'⟩
      rw [goMapGet_cons] at h
      by_cases hk : kv.1 = k
      · rw [if_pos hk] at h
        injection h with h'
        have hkv : kv = (k, v) := by rw [← hk, ← h']
        rw [List.filter_cons, if_neg (by rw [hkv]; simp [hp])]
        apply (goMapGet_eq_none_iff _ _).mpr
        intro hmem
        apply hk1
        rw [hk]
        exact ((List.filter_sublist m).map Prod.fst).subset hmem
      · rw [if_neg hk] at h
        rw [List.filter_cons]
        by_cases hpk : pred kv
        · rw [if_pos hpk, goMapGet_cons, if_neg hk]
          exact ih hnd' h hp
        · rw [if_neg hpk]
          exact ih hnd' h hp

/-- C2: for a gauge series last written at time `t` (`updatedAt`) with value
`v`, a collection strictly later than `t + TTL` removes the series and emits
nothing for it (and it stays gone from every later collection unless
re-written), while a collection at or before `t + TTL` keeps the series and
emits its last written value and attributes. -/
theorem gauge_ttl_eviction (m : GaugeSeriesMap) (now : Int) (key : String)
    (gv : GaugeSeriesValue) (hnd : (m.map Prod.fst).Nodup)
    (h : goMapGet m key = some gv) :
    (gv.updatedAt + defaultGaugeMetricTTL < now →
       goMapGet (evictExpired m now) key = none ∧
       key ∉ (evictExpired m now).map Prod.fst ∧
       ∀ now2 : Int, goMapGet (evictExpired (evictExpired m now) now2) key = none) ∧
    (now ≤ gv.updatedAt + defaultGaugeMetricTTL →
       goMapGet (evictExpired m now) key = some gv ∧
       (gv.value, gv.attrs) ∈ collectObservations m now) := by
  constructor
  · intro hexp
    have hfalse : (fun kv : String × GaugeSeriesValue =>
        ! decide (now - kv.2.updatedAt > defaultGaugeMetricTTL)) (key, gv) = false := by
      simp only [Bool.not_eq_false', decide_eq_true_eq]
      omega
    have h1 : goMapGet (evictExpired m now) key = none :=
      goMapGet_filter_of_false _ hnd h hfalse
    have h2 : key ∉ (evictExpired m now).map Prod.fst :=
      (goMapGet_eq_none_iff _ _).mp h1
    refine ⟨h1, h2, fun now2 => ?_⟩
    apply (goMapGet_eq_none_iff _ _).mpr
    intro hmem
    exact h2 ((((List.filter_sublist (evictExpired m now))).map Prod.fst).subset hmem)
  · intro hfresh
    have htrue : (fun kv : String × GaugeSeriesValue =>
        ! decide (now - kv.2.updatedAt > defaultGaugeMetricTTL)) (key, gv) = true := by
      simp only [Bool.not_eq_true', decide_eq_false_iff_not]
      omega
    have h2 : goMapGet (evictExpired m now) key = some gv :=
      goMapGet_filter_of_true _ h htrue
    exact ⟨h2, List.mem_map_of_mem _ (mem_of_goMapGet_eq_some h2)⟩

/-- Witness for C2 at a concrete one-series map, collected before the TTL
expires. -/
theorem gauge_ttl_eviction_witness :
    ((([("k", (⟨5, [], 0⟩ : GaugeSeriesValue))] : GaugeSeriesMap).map Prod.fst).Nodup ∧
      goMapGet [("k", (⟨5, [], 0⟩ : GaugeSeriesValue))] "k" = some ⟨5, [], 0⟩ ∧
      (1 : Int) ≤ (0 : Int) + defaultGaugeMetricTTL) ∧
    (goMapGet (evictExpired [("k", ⟨5, [], 0⟩)] 1) "k" = some ⟨5, [], 0⟩ ∧
      ((5 : GoFloat), ([] : List Attr)) ∈ collectObservations [("k", ⟨5, [], 0⟩)] 1) :=
  ⟨⟨by decide, by decide, by decide⟩,
   (gauge_ttl_eviction _ 1 "k" _ (by decide) (by decide)).2 (by decide)⟩

/-! ## Counter recording -/

theorem goMapGet_update_self {β : Type} (m : List (String × β)) (name : String) (f : β → β) :
    goMapGet (m.map fun nc => if nc.1 = name then (nc.1, f nc.2) else nc) name =
      (goMapGet m name).map f := by
  induction m with
  | nil => simp [goMapGet]
  | cons kv m ih =>
      by_cases h : kv.1 = name
      · simp [List.map_cons, if_pos h, goMapGet_cons, h]
      · simp [List.map_cons, if_neg h, goMapGet_cons, h, ih]

/-- C7: recording a negative delta on a registered counter (with the meter
configured) leaves the registry untouched, emits exactly one diagnostic line
naming the counter, and does not add anything to the instrument; the
function's return type carries no error, so no error can reach the caller.
Deltas that are not negative are added to the counter's total. -/
theorem recordCounter_negative_delta_dropped
    (counters : List (String × CounterAdditions)) (name : String) (value : Int)
    (metricAttrs : List (String × GoValue)) (adds : CounterAdditions)
    (hreg : goMapGet counters name = some adds) :
    (value < 0 →
       recordCounterWithCtx true counters name value metricAttrs =
         (counters,
          ["[error] Failed to record Counter '" ++ name ++ "': Value must be non-negative"]) ∧
       counterTotal (recordCounterWithCtx true counters name value metricAttrs).1 name =
         counterTotal counters name) ∧
    (0 ≤ value →
       counterTotal (recordCounterWithCtx true counters name value metricAttrs).1 name =
         counterTotal counters name + value) := by
  constructor
  · intro hneg
    have heq : recordCounterWithCtx true counters name value metricAttrs =
        (counters,
         ["[error] Failed to record Counter '" ++ name ++ "': Value must be non-negative"]) := by
      simp [recordCounterWithCtx, hreg, hneg]
    exact ⟨heq, by rw [heq]⟩
  · intro hpos
    have hneg : ¬ value < 0 := not_lt.mpr hpos
    simp only [recordCounterWithCtx, Bool.not_true, Bool.false_eq_true, if_false, hreg, hneg]
    rw [counterTotal,
        goMapGet_update_self counters name
          (fun adds => adds ++ [(value, (mapToAttribute metricAttrs).1)]),
        hreg, counterTotal, hreg]
    simp

/-- Witness for C7 at a one-counter registry and delta -1. -/
theorem recordCounter_negative_delta_dropped_witness :
    (goMapGet [("req", ([] : CounterAdditions))] "req" = some [] ∧ (-1 : Int) < 0) ∧
    (recordCounterWithCtx true [("req", [])] "req" (-1) [] =
       ([("req", [])],
        ["[error] Failed to record Counter 'req': Value must be non-negative"]) ∧
     counterTotal (recordCounterWithCtx true [("req", [])] "req" (-1) []).1 "req" =
       counterTotal [("req", [])] "req") :=
  ⟨⟨by decide, by decide⟩,
   (recordCounter_negative_delta_dropped [("req", [])] "req" (-1) [] [] (by decide)).1
     (by decide)⟩

/-! ## Span commit -/

theorem foldl_spanOps (ops : List SpanOp) : ∀ s : SpanState,
    ops.foldl applySpanOp s =
      ⟨ops.foldl
         (fun m op => match op with
           | SpanOp.setAttribute k v => goMapSet m k v
           | SpanOp.setError _ => m)
         s.spanAttributes,
       ops.foldl
         (fun acc op => match op with
           | SpanOp.setAttribute _ _ => acc
           | SpanOp.setError e => e)
         s.err⟩ := by
  induction ops with
  | nil => intro s; rfl
  | cons op ops ih => intro s; cases op <;> simp [List.foldl_cons, applySpanOp, ih]

theorem applySpanOps_state (ops : List SpanOp) :
    applySpanOps ops = ⟨accumulatedAttributes ops, pendingError ops⟩ :=
  foldl_spanOps ops ⟨[], none⟩

/-- C8 (amended): committing a span applies the codec conversion of the
attribute map accumulated by the `SetAttribute` calls (value types outside
the codec's switch being dropped by it), then sets status Error — recording
the pending error and a stack trace — exactly when the error left by the
last `SetError` call is non-nil, and status Ok ("success") otherwise, and
ends the underlying handle. -/
theorem spanDone_commit_spec (ops : List SpanOp) :
    spanDone (applySpanOps ops) =
      match pendingError ops with
      | some e =>
          [CoreSpanEffect.setAttributes (mapToAttribute (accumulatedAttributes ops)).1,
           CoreSpanEffect.recordError e, CoreSpanEffect.setStatus StatusCode.error e,
           CoreSpanEffect.endSpan true]
      | none =>
          [CoreSpanEffect.setAttributes (mapToAttribute (accumulatedAttributes ops)).1,
           CoreSpanEffect.setStatus StatusCode.ok "success",
           CoreSpanEffect.endSpan false] := by
  rw [applySpanOps_state ops]
  cases h : pendingError ops <;> simp [spanDone, h]

/-- Counterexample to C8 as stated: after `SetError(non-nil)` followed by
`SetError(nil)` the commit sets status Ok although `SetError` was called with
a non-nil error; and an accumulated attribute whose value type is outside the
codec's switch is not applied to the handle (`setAttributes []`). -/
theorem spanDone_counterexample :
    spanDone (applySpanOps [SpanOp.setError (some "boom"), SpanOp.setError none]) =
      [CoreSpanEffect.setAttributes [], CoreSpanEffect.setStatus StatusCode.ok "success",
       CoreSpanEffect.endSpan false] ∧
    accumulatedAttributes [SpanOp.setAttribute "ch" (GoValue.vOther "chan int")] =
      [("ch", GoValue.vOther "chan int")] ∧
    spanDone (applySpanOps [SpanOp.setAttribute "ch" (GoValue.vOther "chan int")]) =
      [CoreSpanEffect.setAttributes [], CoreSpanEffect.setStatus StatusCode.ok "success",
       CoreSpanEffect.endSpan false] := by
  refine ⟨by decide, by decide, by decide⟩

/-! ## Attribute codec classification -/

theorem attrOfEntry_isSome_of_converts {k : String} {v : GoValue}
    (h : codecConverts v = true) : ∃ a, attrOfEntry k v = some a := by
  cases v <;> simp [codecConverts, attrOfEntry] at h ⊢ <;> simp [h]

theorem attrOfEntry_eq_none_of_silent {k : String} {v : GoValue}
    (h : codecSilentlyDrops v = true) :
    attrOfEntry k v = none ∧ logOfEntry k v = none := by
  cases v <;> simp [codecSilentlyDrops, attrOfEntry, logOfEntry] at h ⊢ <;> omega

theorem attrOfEntry_eq_none_of_diag {k : String} {v : GoValue}
    (h : codecDiagnoses v = true) :
    attrOfEntry k v = none ∧ logOfEntry k v = some (codecDiagnosticLine k) := by
  cases v <;> simp [codecDiagnoses, attrOfEntry, logOfEntry, codecDiagnosticLine] at h ⊢

/-- No attribute with the entry's key can appear in the codec output when the
entry's own value converts to nothing and the bag's keys are distinct. -/
theorem key_not_in_codec_output {pre post : List (String × GoValue)} {k : String} {v : GoValue}
    (hnd : ((pre ++ (k, v) :: post).map Prod.fst).Nodup)
    (hnone : attrOfEntry k v = none) :
    k ∉ (mapToAttribute (pre ++ (k, v) :: post)).1.map Attr.key := by
  intro hmem
  rcases List.mem_map.mp hmem with ⟨a, hamem, hakey⟩
  rcases List.mem_filterMap.mp hamem with ⟨kv', hkv'mem, hkv'⟩
  obtain ⟨k1, v1⟩ := kv'
  have hkey : k1 = k := (attrOfEntry_key hkv').symm.trans hakey
  subst hkey
  have hvv : v1 = v := nodup_keys_unique hnd hkv'mem (by simp)
  rw [hvv, hnone] at hkv'
  cases hkv'

/-- C9 (amended): `mapToAttribute` is total (it returns a value for every
bag, never an error), every entry whose value is of a type the switch
converts (string, bool, int, int64, uint, float32, float64, a `uint64` not
exceeding MaxInt64, or one of []string, []bool, []int, []int64, []float64)
yields a typed attribute under its key; every entry of a type outside the
switch is dropped and produces the diagnostic naming its key; and a nil
value or an out-of-range `uint64` is dropped with no diagnostic at all. -/
theorem mapToAttribute_codec_spec (pre post : List (String × GoValue)) (k : String)
    (v : GoValue) (hnd : ((pre ++ (k, v) :: post).map Prod.fst).Nodup) :
    (codecConverts v = true →
       ∃ a, a.key = k ∧ a ∈ (mapToAttribute (pre ++ (k, v) :: post)).1) ∧
    (codecDiagnoses v = true →
       codecDiagnosticLine k ∈ (mapToAttribute (pre ++ (k, v) :: post)).2 ∧
       k ∉ (mapToAttribute (pre ++ (k, v) :: post)).1.map Attr.key) ∧
    (codecSilentlyDrops v = true →
       mapToAttribute (pre ++ (k, v) :: post) = mapToAttribute (pre ++ post) ∧
       k ∉ (mapToAttribute (pre ++ (k, v) :: post)).1.map Attr.key) := by
  refine ⟨?_, ?_, ?_⟩
  · intro hc
    rcases attrOfEntry_isSome_of_converts (k := k) hc with ⟨a, ha⟩
    exact ⟨a, attrOfEntry_key ha,
      List.mem_filterMap.mpr ⟨(k, v), by simp, ha⟩⟩
  · intro hd
    rcases attrOfEntry_eq_none_of_diag (k := k) hd with ⟨hattr, hlog⟩
    refine ⟨List.mem_filterMap.mpr ⟨(k, v), by simp, hlog⟩, ?_⟩
    exact key_not_in_codec_output hnd hattr
  · intro hs
    rcases attrOfEntry_eq_none_of_silent (k := k) hs with ⟨hattr, hlog⟩
    refine ⟨?_, key_not_in_codec_output hnd hattr⟩
    simp [mapToAttribute, List.filterMap_append, List.filterMap_cons, hattr, hlog]

/-- Witness for C9 at a concrete two-entry bag with one entry of an
unsupported type. -/
theorem mapToAttribute_codec_spec_witness :
    ((([("bad", GoValue.vOther "chan int"), ("x", GoValue.vString "1")] :
          List (String × GoValue)).map Prod.fst).Nodup ∧
      codecDiagnoses (GoValue.vOther "chan int") = true) ∧
    (codecDiagnosticLine "bad" ∈
        (mapToAttribute [("bad", GoValue.vOther "chan int"), ("x", GoValue.vString "1")]).2 ∧
      "bad" ∉
        (mapToAttribute
            [("bad", GoValue.vOther "chan int"), ("x", GoValue.vString "1")]).1.map Attr.key) :=
  ⟨⟨by decide, by decide⟩,
   (mapToAttribute_codec_spec [] [("x", GoValue.vString "1")] "bad" (GoValue.vOther "chan int")
       (by decide)).2.1 (by decide)⟩

/-- Counterexample to C9 as stated: the entry `("k", uint64(2^63))` has one
of the claim's supported types (`uint64`) yet is not converted to any
attribute — and, being dropped, produces no diagnostic either. -/
theorem mapToAttribute_counterexample :
    mapToAttribute [("k", GoValue.vUint64 (2 ^ 63))] = ([], []) ∧ maxInt64 < 2 ^ 63 := by
  refine ⟨by decide, by decide⟩

/-! ## JSON codec round-trip and the correlation cache -/

theorem hexVal_hexDigitChar : ∀ d : Nat, d < 16 → hexVal (hexDigitChar d) = some d := by decide

theorem unquote_escapeChar (c : Char) (acc rest : List Char) (f : Nat) :
    unquoteAux (f + 1) acc (escapeChar c ++ rest) = unquoteAux f (c :: acc) rest := by
  simp only [escapeChar]
  split_ifs with h1 h2 h3 h4 h5 h6 h7
  · subst h1; rfl
  · subst h2; rfl
  · subst h3; rfl
  · subst h4; rfl
  · subst h5; rfl
  · rcases h6 with h6 | h6 | h6 | h6
    · obtain ⟨n, hn, rfl⟩ : ∃ n, n < 32 ∧ c = Char.ofNat n :=
        ⟨c.toNat, h6, (Char.ofNat_toNat c).symm⟩
      interval_cases n <;> rfl
    · subst h6; rfl
    · subst h6; rfl
    · subst h6; rfl
  · have hc := (Char.ofNat_toNat c).symm
    rcases h7 with h7 | h7 <;> rw [h7] at hc <;> subst hc <;> rfl
  · simp only [List.singleton_append]
    rw [unquoteAux.eq_def]
    simp [h1, h2]

theorem escape_flatten_length (cs : List Char) :
    cs.length ≤ ((cs.map escapeChar).flatten).length := by
  induction cs with
  | nil => simp
  | cons c cs ih =>
      simp only [List.map_cons, List.flatten_cons, List.length_append, List.length_cons]
      have h1 : 1 ≤ (escapeChar c).length := by
        simp only [escapeChar]; split_ifs <;> simp
      omega

theorem unquote_encoded (cs : List Char) : ∀ (acc rest : List Char) (f : Nat),
    unquoteAux (cs.length + (f + 1)) acc ((cs.map escapeChar).flatten ++ '"' :: rest) =
      some (String.mk (acc.reverse ++ cs), rest) := by
  induction cs with
  | nil =>
      intro acc rest f
      simp only [List.length_nil, Nat.zero_add, List.map_nil, List.flatten_nil,
        List.nil_append, List.append_nil]
      rfl
  | cons c cs ih =>
      intro acc rest f
      have hlen : (c :: cs).length + (f + 1) = (cs.length + (f + 1)) + 1 := by
        simp only [List.length_cons]; omega
      rw [hlen]
      simp only [List.map_cons, List.flatten_cons, List.append_assoc]
      rw [unquote_escapeChar, ih (c :: acc) rest f]
      simp [List.reverse_cons, List.append_assoc]

theorem mk_data (s : String) : String.mk s.data = s := rfl

theorem parse_encodeString (s : String) (tail : List Char) :
    parseJSONString (encodeStringChars s ++ tail) = some (s, tail) := by
  have hform : encodeStringChars s ++ tail =
      '"' :: ((s.data.map escapeChar).flatten ++ '"' :: tail) := by
    simp [encodeStringChars, List.append_assoc]
  rw [hform]
  simp only [parseJSONString, if_pos rfl]
  have hineq : s.data.length + 1 ≤ ((s.data.map escapeChar).flatten ++ '"' :: tail).length := by
    have := escape_flatten_length s.data
    simp only [List.length_append, List.length_cons]
    omega
  obtain ⟨f, hf⟩ : ∃ f, ((s.data.map escapeChar).flatten ++ '"' :: tail).length =
      s.data.length + (f + 1) :=
    ⟨((s.data.map escapeChar).flatten ++ '"' :: tail).length - s.data.length - 1, by omega⟩
  rw [hf, unquote_encoded]
  simp [mk_data]

theorem membersChars_cons_shape (p : String × String) (ps : List (String × String)) :
    ∃ t, membersChars (p :: ps) = '"' :: t := by
  cases ps with
  | nil =>
      refine ⟨(p.1.data.map escapeChar).flatten ++ '"' :: ':' :: encodeStringChars p.2, ?_⟩
      simp [membersChars, encodePairChars, encodeStringChars]
  | cons q qs =>
      refine ⟨(p.1.data.map escapeChar).flatten ++ '"' :: ':' ::
          (encodeStringChars p.2 ++ ',' :: membersChars (q :: qs)), ?_⟩
      simp [membersChars, encodePairChars, encodeStringChars]

theorem members_length_ge : ∀ ps : List (String × String), ps.length ≤ (membersChars ps).length
  | [] => by simp [membersChars]
  | [p] => by simp [membersChars, encodePairChars, encodeStringChars]
  | p :: q :: qs => by
      have h := members_length_ge (q :: qs)
      simp only [membersChars, encodePairChars, List.length_append, List.length_cons,
        List.length_nil] at h ⊢
      omega

theorem parseMembers_succ_last (fuel : Nat) (p : String × String) (rest : List Char) :
    parseMembers (fuel + 1) (encodePairChars p ++ '\x7d' :: rest) = some ([p], rest) := by
  simp [parseMembers, encodePairChars, List.append_assoc, List.cons_append, parse_encodeString]

theorem parseMembers_succ_pair (fuel : Nat) (p : String × String) (l : List Char) :
    parseMembers (fuel + 1) (encodePairChars p ++ ',' :: l) =
      match parseMembers fuel l with
      | some (ps, r5) => some (p :: ps, r5)
      | none => none := by
  simp [parseMembers, encodePairChars, List.append_assoc, List.cons_append, parse_encodeString]

theorem parse_members_encoded : ∀ (ps : List (String × String)) (f : Nat) (rest : List Char),
    ps ≠ [] → parseMembers (f + ps.length) (membersChars ps ++ '\x7d' :: rest) = some (ps, rest)
  | [], _, _, h => absurd rfl h
  | [p], f, rest, _ => by
      simpa [membersChars] using parseMembers_succ_last f p rest
  | p :: q :: qs, f, rest, _ => by
      have ihq := parse_members_encoded (q :: qs) f rest (by simp)
      rw [show f + (p :: q :: qs).length = (f + (q :: qs).length) + 1 from by
            simp only [List.length_cons]; omega,
          show membersChars (p :: q :: qs) ++ '\x7d' :: rest =
              encodePairChars p ++ ',' :: (membersChars (q :: qs) ++ '\x7d' :: rest) from by
            simp [membersChars, List.append_assoc],
          parseMembers_succ_pair, ihq]

theorem data_mk (L : List Char) : (String.mk L).data = L := rfl

theorem unmarshal_mk_object (ps : List (String × String)) (hne : ps ≠ []) :
    jsonUnmarshalCarrier (String.mk ('\x7b' :: membersChars ps ++ ['\x7d'])) = some ps := by
  rcases ps with _ | ⟨p, ps⟩
  · exact absurd rfl hne
  obtain ⟨t, ht⟩ := membersChars_cons_shape p ps
  obtain ⟨f, hf⟩ : ∃ f, (membersChars (p :: ps) ++ ['\x7d']).length = f + (p :: ps).length := by
    have := members_length_ge (p :: ps)
    exact ⟨(membersChars (p :: ps) ++ ['\x7d']).length - (p :: ps).length, by
      simp only [List.length_append, List.length_cons, List.length_nil] at *
      omega⟩
  have hparse : parseMembers ((membersChars (p :: ps) ++ ['\x7d']).length)
      (membersChars (p :: ps) ++ ['\x7d']) = some (p :: ps, []) := by
    rw [hf]
    exact parse_members_encoded (p :: ps) f [] (by simp)
  simp only [jsonUnmarshalCarrier, data_mk]
  rw [ht]
  simp only [List.cons_append]
  rw [← List.cons_append, ← ht]
  rw [hparse]
  simp

theorem unmarshal_marshal (c : List (String × String)) :
    jsonUnmarshalCarrier (jsonMarshalCarrier c) = some (sortPairsByKey c) := by
  cases hs : sortPairsByKey c with
  | nil =>
      simp only [jsonMarshalCarrier, marshalChars, hs, membersChars]
      rfl
  | cons p ps =>
      simp only [jsonMarshalCarrier, marshalChars, hs]
      exact unmarshal_mk_object (p :: ps) (by simp)

theorem goMapGet_map_overwrite {β : Type} (k : String) (v : β) : ∀ m : List (String × β),
    m.any (fun kv => kv.1 = k) = true →
    goMapGet (m.map fun kv => if kv.1 = k then (k, v) else kv) k = some v := by
  intro m
  induction m with
  | nil => intro h; simp at h
  | cons kv m ih =>
      intro h
      by_cases hk : kv.1 = k
      · simp [List.map_cons, if_pos hk, goMapGet_cons]
      · have h' : m.any (fun kv => kv.1 = k) = true := by
          simpa [List.any_cons, hk] using h
        simp [List.map_cons, if_neg hk, goMapGet_cons, hk, ih h']

theorem goMapGet_append {β : Type} (m m' : List (String × β)) (k : String) :
    goMapGet (m ++ m') k =
      match goMapGet m k with
      | some v => some v
      | none => goMapGet m' k := by
  induction m with
  | nil => simp [goMapGet]
  | cons kv m ih =>
      by_cases hk : kv.1 = k <;>
        simp [List.cons_append, goMapGet_cons, hk, ih]

theorem goMapGet_goMapSet_self {β : Type} (m : List (String × β)) (k : String) (v : β) :
    goMapGet (goMapSet m k v) k = some v := by
  unfold goMapSet
  by_cases hany : m.any (fun kv => kv.1 = k)
  · rw [if_pos hany]
    exact goMapGet_map_overwrite k v m hany
  · rw [if_neg hany]
    rw [goMapGet_append]
    have hnone : goMapGet m k = none := by
      apply (goMapGet_eq_none_iff _ _).mpr
      intro hmem
      apply hany
      rcases List.mem_map.mp hmem with ⟨kv, hkv, hfst⟩
      exact List.any_eq_true.mpr ⟨kv, hkv, by simp [hfst]⟩
    rw [hnone]
    simp [goMapGet_cons]

theorem hgetField_hsetField_self (st : RedisStore) (rkey field val : String) :
    hgetField (hsetField st rkey field val) rkey field = some val := by
  unfold hsetField hgetField
  cases h : goMapGet st.hashes rkey with
  | some hsh =>
      simp only
      rw [goMapGet_goMapSet_self]
      exact goMapGet_goMapSet_self hsh field val
  | none =>
      simp only
      rw [goMapGet_goMapSet_self]
      simp [goMapGet_cons]

theorem sortPairsByKey_eq_self {c : List (String × String)} (hc : c.Pairwise pairKeyLe) :
    sortPairsByKey c = c :=
  List.Sorted.insertionSort_eq hc

/-- C5: storing a carrier (in its canonical key-sorted Go-map representation)
with Set and reading it back with Get over a normally-behaving backing store
returns a carrier equal to the one stored, with a nil error: the JSON
serialization used for cache storage round-trips the carrier without loss. -/
theorem cache_set_get_roundtrip (st : RedisStore) (g k : String) (c : TraceCarrier)
    (hc : c.Pairwise pairKeyLe) :
    getTraceCarrierFromGroup (setTraceCarrierFromGroup st g k c) g k = (c, none) := by
  unfold getTraceCarrierFromGroup hgetOutcome setTraceCarrierFromGroup
  rw [hgetField_hsetField_self]
  show getTraceCarrierFromGroupResult (HGetResult.found (jsonMarshalCarrier c)) = (c, none)
  simp [getTraceCarrierFromGroupResult, unmarshal_marshal, sortPairsByKey_eq_self hc]

/-- Witness for C5 at a concrete carrier with characters that exercise the
escaping, stored over a non-empty backing store. -/
theorem cache_set_get_roundtrip_witness :
    (([("traceparent", "00-4bf9-01"), ("x<y", "a\"b\nc")] :
        TraceCarrier).Pairwise pairKeyLe) ∧
    getTraceCarrierFromGroup
        (setTraceCarrierFromGroup ⟨[("junk", [("a", "b")])]⟩ "batch1" "item1"
          [("traceparent", "00-4bf9-01"), ("x<y", "a\"b\nc")])
        "batch1" "item1" =
      ([("traceparent", "00-4bf9-01"), ("x<y", "a\"b\nc")], none) :=
  ⟨by decide,
   cache_set_get_roundtrip ⟨[("junk", [("a", "b")])]⟩ "batch1" "item1"
     [("traceparent", "00-4bf9-01"), ("x<y", "a\"b\nc")] (by decide)⟩

/-- C6: with nothing stored under a (group, key), Get returns the empty
carrier and a nil error; and whenever Get returns a non-nil error, the
backend reply was either a connection failure or a stored value that does not
decode — never a logical miss. -/
theorem cache_get_miss_and_error_policy :
    (∀ (st : RedisStore) (g k : String),
       hgetField st (getGroupKey g) k = none →
       getTraceCarrierFromGroup st g k = ([], none)) ∧
    (∀ (resp : HGetResult) (c : TraceCarrier) (e : CacheErr),
       getTraceCarrierFromGroupResult resp = (c, some e) →
       (∃ msg, resp = HGetResult.connError msg) ∨
         ∃ raw, resp = HGetResult.found raw ∧ jsonUnmarshalCarrier raw = none) := by
  constructor
  · intro st g k h
    unfold getTraceCarrierFromGroup hgetOutcome
    rw [h]
    rfl
  · intro resp c e h
    cases resp with
    | nilReply => simp [getTraceCarrierFromGroupResult] at h
    | connError msg => exact Or.inl ⟨msg, rfl⟩
    | found raw =>
        refine Or.inr ⟨raw, rfl, ?_⟩
        cases hu : jsonUnmarshalCarrier raw with
        | none => rfl
        | some c' => simp [getTraceCarrierFromGroupResult, hu] at h

/-- Witness for C6 at an empty backing store. -/
theorem cache_get_miss_and_error_policy_witness :
    hgetField ⟨[]⟩ (getGroupKey "g") "k" = none ∧
    getTraceCarrierFromGroup ⟨[]⟩ "g" "k" = ([], none) :=
  ⟨rfl, cache_get_miss_and_error_policy.1 ⟨[]⟩ "g" "k" rfl⟩
